import Mathlib

/-!
# Verification of the Sai Satcharitra backend migration and search logic

Shallow embedding of `convert_chapters.py` (PostgreSQL-export parsing, text
normalization, translation grouping, multilingual document assembly, sorting)
and of the chapter search endpoint of `server.py`, together with proofs of the
specified properties.

Strings are modelled as `List Char`; Python `dict`s as insertion-ordered
association lists (`dictInsert` updates in place, so it matches Python's
dict semantics including iteration order); Python exceptions as `Except`.
-/

namespace Satcharitra

/-- Python strings, modelled as lists of characters. -/
abbrev Str := List Char

/-- Coerce a Lean string literal into the model. -/
def str (s : String) : Str := s.data

/-! ## Text normalizer (`clean_text` in `convert_chapters.py`, lines 124-143) -/

/-- Python whitespace characters, as stripped by `str.strip()` (ASCII range;
the repository's data never contains non-ASCII whitespace). -/
def isPySpace (c : Char) : Bool :=
  c = ' ' || c = '\t' || c = '\n' || c = '\r' || c = '\x0b' || c = '\x0c'

/-- `text.replace('\\n', '\n')` — left-to-right scan replacing each literal
backslash-n pair by a newline character (line 129). -/
def replaceLitNL : Str → Str
  | [] => []
  | [c] => [c]
  | a :: b :: rest =>
    if a = '\\' ∧ b = 'n' then '\n' :: replaceLitNL rest
    else a :: replaceLitNL (b :: rest)

/-- Replacement emitted when a maximal newline run of length `n` ends:
`re.sub(r'\n{3,}', '\n\n', ...)` rewrites runs of three or more newlines
to exactly two and leaves shorter runs alone (line 132). -/
def emitNL (n : Nat) : Str :=
  if 3 ≤ n then ['\n', '\n'] else List.replicate n '\n'

/-- Run-tracking worker for the 3+-newline collapse; `n` counts the pending
newlines. -/
def collapse3NLAux : Str → Nat → Str
  | [], n => emitNL n
  | c :: rest, n =>
    if c = '\n' then collapse3NLAux rest (n + 1)
    else emitNL n ++ c :: collapse3NLAux rest 0

/-- `re.sub(r'\n{3,}', '\n\n', text)` (line 132). -/
def collapse3NL (s : Str) : Str := collapse3NLAux s 0

/-- Replacement emitted when a maximal newline run of length `n` ends:
`re.sub(r'(?<!\n)\n(?!\n)', ' ', ...)` rewrites exactly the runs of length
one (a newline with no newline neighbour) to a space (line 135). -/
def emitNL1 (n : Nat) : Str :=
  if n = 1 then [' '] else List.replicate n '\n'

/-- Run-tracking worker for the single-newline-to-space substitution. -/
def singleNLAux : Str → Nat → Str
  | [], n => emitNL1 n
  | c :: rest, n =>
    if c = '\n' then singleNLAux rest (n + 1)
    else emitNL1 n ++ c :: singleNLAux rest 0

/-- `re.sub(r'(?<!\n)\n(?!\n)', ' ', text)` (line 135). -/
def singleNLtoSpace (s : Str) : Str := singleNLAux s 0

/-- Worker for `re.sub(r' +', ' ', text)`: the flag records whether the
previous emitted character was a space (i.e. we are inside a space run). -/
def collapseSpacesAux : Str → Bool → Str
  | [], _ => []
  | c :: rest, b =>
    if c = ' ' then
      if b then collapseSpacesAux rest true
      else ' ' :: collapseSpacesAux rest true
    else c :: collapseSpacesAux rest false

/-- `re.sub(r' +', ' ', text)` (line 138). -/
def collapseSpaces (s : Str) : Str := collapseSpacesAux s false

/-- Remove trailing whitespace (the right half of `str.strip()`). -/
def pyStripRight : Str → Str
  | [] => []
  | c :: rest =>
    let r := pyStripRight rest
    if r = [] ∧ isPySpace c then [] else c :: r

/-- `text.strip()` (line 141): drop leading and trailing whitespace. -/
def pyStrip (s : Str) : Str := pyStripRight (List.dropWhile isPySpace s)

/-- `clean_text` on a (non-null) string: Python returns falsy input (the empty
string) unchanged, otherwise applies the five normalization steps in order
(lines 124-143). -/
def cleanText (s : Str) : Str :=
  if s = [] then s
  else pyStrip (collapseSpaces (singleNLtoSpace (collapse3NL (replaceLitNL s))))

/-- `clean_text` including the `None` case (`if not text: return text`). -/
def clean_text : Option Str → Option Str
  | none => none
  | some s => some (cleanText s)

/-! ### Observations used to state the newline-shape properties -/

/-- Lengths flushed when a maximal newline run of length `k` ends. -/
def flushNL (k : Nat) : List Nat := if k = 0 then [] else [k]

/-- Worker computing the list of lengths of the maximal newline runs of a
string; `k` counts the newlines of the run currently being read. -/
def nlRunLensAux : Str → Nat → List Nat
  | [], k => flushNL k
  | c :: rest, k =>
    if c = '\n' then nlRunLensAux rest (k + 1)
    else flushNL k ++ nlRunLensAux rest 0

/-- The lengths of the maximal runs of consecutive newline characters. -/
def nlRunLens (s : Str) : List Nat := nlRunLensAux s 0

/-- `hasPair a b s` holds iff the two-character sequence `a, b` occurs in `s`
at adjacent positions. -/
def hasPair (a b : Char) : Str → Bool
  | [] => false
  | [_] => false
  | x :: y :: rest => (decide (x = a ∧ y = b)) || hasPair a b (y :: rest)

/-- Length of the newline run emitted by `emitNL`. -/
def emitNLLen (n : Nat) : Nat := if 3 ≤ n then 2 else n

/-! ## Python dictionaries

Insertion-ordered association lists: `dictInsert` updates an existing key in
place and appends a fresh key at the end, exactly like assignment into a
Python `dict`; iterating the list models `dict.items()` order. -/

/-- `d[k] = v` on a Python dict. -/
def dictInsert {K V : Type} [DecidableEq K] (k : K) (v : V) :
    List (K × V) → List (K × V)
  | [] => [(k, v)]
  | (k', v') :: rest =>
    if k' = k then (k, v) :: rest else (k', v') :: dictInsert k v rest

/-- `d.get(k)` on a Python dict. -/
def dictGet? {K V : Type} [DecidableEq K] (k : K) : List (K × V) → Option V
  | [] => none
  | (k', v') :: rest => if k' = k then some v' else dictGet? k rest

/-- `k in d` on a Python dict. -/
def hasKey {K V : Type} [DecidableEq K] (k : K) (d : List (K × V)) : Bool :=
  (dictGet? k d).isSome

/-! ## Export rows (`parse_copy_data`, lines 46-78) -/

/-- Decidable equality for `Except`, so that concrete parser outcomes can be
checked by `decide`. -/
instance {ε α : Type} [DecidableEq ε] [DecidableEq α] : DecidableEq (Except ε α) :=
  fun x y =>
    match x, y with
    | .ok a, .ok b =>
      if h : a = b then .isTrue (by rw [h]) else .isFalse (fun hc => h (Except.ok.inj hc))
    | .ok _, .error _ => .isFalse (fun hc => Except.noConfusion hc)
    | .error _, .ok _ => .isFalse (fun hc => Except.noConfusion hc)
    | .error e, .error f =>
      if h : e = f then .isTrue (by rw [h])
      else .isFalse (fun hc => h (Except.error.inj hc))

/-- One parsed row of the `public.chapters` COPY block. -/
structure ChapterRow where
  id : Int
  chapter_number : Int
  last_updated : Str
  default_language : Str
deriving DecidableEq

/-- One parsed row of the `public.chapter_translations` COPY block. -/
structure TranslationRow where
  id : Int
  chapter_id : Int
  language : Str
  title : Str
  content : Str
  summary : Str
  last_updated : Str
  theme : Str
deriving DecidableEq

/-- `line.split('\t')`: split at every tab, keeping empty fields. -/
def splitTab : Str → List Str
  | [] => [[]]
  | c :: rest =>
    if c = '\t' then [] :: splitTab rest
    else
      match splitTab rest with
      | [] => [[c]]
      | f :: fs => (c :: f) :: fs

/-- Digit-string value, `none` unless the string is nonempty and all digits. -/
def strDigits? (s : Str) : Option Nat :=
  if s ≠ [] ∧ s.all Char.isDigit then
    some (s.foldl (fun n c => n * 10 + (c.toNat - '0'.toNat)) 0)
  else none

/-- Python `int(s)`: optional surrounding whitespace, optional sign, digits;
`none` models the `ValueError` raised on anything else. -/
def pyInt? (s : Str) : Option Int :=
  match List.dropWhile isPySpace (pyStripRight s) with
  | [] => none
  | c :: rest =>
    if c = '+' then (strDigits? rest).map Int.ofNat
    else if c = '-' then (strDigits? rest).map (fun n => -(n : Int))
    else (strDigits? (c :: rest)).map Int.ofNat

/-- The two-character null sentinel `\N` of the export format. -/
def nullSentinel : Str := str "\\N"

/-- The chapters loop body (lines 47-56): a blank line or a line with fewer
than 4 tab-separated fields is skipped; otherwise the two leading fields are
parsed with `int(...)`, whose failure raises an uncaught `ValueError` that
aborts the whole run (there is no `try` around this loop). -/
def parseChapterRows : List Str → Except Str (List ChapterRow)
  | [] => .ok []
  | line :: rest =>
    if pyStrip line = [] then parseChapterRows rest
    else
      let parts := splitTab line
      if 4 ≤ parts.length then
        match pyInt? (parts.getD 0 []), pyInt? (parts.getD 1 []) with
        | some i, some n =>
          (parseChapterRows rest).map
            (fun tl => ⟨i, n, parts.getD 2 [], parts.getD 3 []⟩ :: tl)
        | _, _ => .error (str "ValueError")
      else parseChapterRows rest

/-- The body of the `try` block of the translations loop (lines 62-75): a
blank line or a line with fewer than 7 fields yields no row (silently);
a non-numeric `id`/`chapter_id` raises `ValueError` (`.error`), which the
surrounding `except` catches. The summary field defaults to the title when
it is empty or the null sentinel (line 72); the theme field defaults to
`"temple"` (line 74). -/
def parseTranslationLineE (line : Str) : Except Str (Option TranslationRow) :=
  if pyStrip line = [] then .ok none
  else
    let parts := splitTab line
    if 7 ≤ parts.length then
      match pyInt? (parts.getD 0 []), pyInt? (parts.getD 1 []) with
      | some i, some cid =>
        let title := parts.getD 3 []
        let summary5 := parts.getD 5 []
        .ok (some
          { id := i
            chapter_id := cid
            language := parts.getD 2 []
            title := title
            content := parts.getD 4 []
            summary :=
              if summary5 ≠ [] ∧ summary5 ≠ nullSentinel then summary5 else title
            last_updated := parts.getD 6 []
            theme := if 7 < parts.length then parts.getD 7 [] else str "temple" })
      | _, _ => .error (str "ValueError")
    else .ok none

/-- The translations loop (lines 59-78) with its `try`/`except`: an error from
a row is caught, a warning naming the 1-based line number `n + 1` is recorded,
and parsing continues. Returns the parsed rows and the warned line numbers. -/
def parseTranslationRowsLoop : List Str → Nat → List TranslationRow × List Nat
  | [], _ => ([], [])
  | line :: rest, n =>
    let acc := parseTranslationRowsLoop rest (n + 1)
    match parseTranslationLineE line with
    | .ok none => acc
    | .ok (some t) => (t :: acc.1, acc.2)
    | .error _ => (acc.1, (n + 1) :: acc.2)

/-- The translations block parser (`enumerate` starts the line counter at 0). -/
def parseTranslationRows (lines : List Str) : List TranslationRow × List Nat :=
  parseTranslationRowsLoop lines 0

/-- The dictionary returned by `parse_copy_data`. -/
structure ParsedData where
  chapters : List ChapterRow
  translations : List TranslationRow
deriving DecidableEq

/-! ## Translation grouping (`convert_to_mongodb_format`, lines 91-97) -/

/-- One step of the grouping loop:
`translations_by_chapter[chapter_id][language] = trans`. -/
def groupStep (d : List (Int × List (Str × TranslationRow))) (t : TranslationRow) :
    List (Int × List (Str × TranslationRow)) :=
  dictInsert t.chapter_id
    (dictInsert t.language t ((dictGet? t.chapter_id d).getD [])) d

/-- Group translations by `chapter_id`, then by `language`; a later row with
the same `(chapter_id, language)` overwrites an earlier one. -/
def groupTranslations (ts : List TranslationRow) :
    List (Int × List (Str × TranslationRow)) :=
  ts.foldl groupStep []

/-! ## Multilingual document assembly (lines 99-164) -/

/-- The language-code mapping of lines 112-121: each known code maps to
itself, unknown codes pass through. -/
def mapLangKey (lang : Str) : Str :=
  if lang = str "english" then str "english"
  else if lang = str "hindi" then str "hindi"
  else if lang = str "telugu" then str "telugu"
  else if lang = str "marathi" then str "marathi"
  else lang

/-- One iteration of the per-language loop (lines 111-147): insert the cleaned
title, content and summary under the mapped language key.  The summary falls
back to the title when it is empty (line 147). -/
def buildMapsStep (acc : List (Str × Str) × List (Str × Str) × List (Str × Str))
    (e : Str × TranslationRow) :
    List (Str × Str) × List (Str × Str) × List (Str × Str) :=
  let lang_key := mapLangKey e.1
  let t := e.2
  (dictInsert lang_key (cleanText t.title) acc.1,
   dictInsert lang_key (cleanText t.content) acc.2.1,
   dictInsert lang_key (cleanText (if t.summary ≠ [] then t.summary else t.title))
     acc.2.2)

/-- The three multilingual maps built for a chapter's translation group. -/
def buildMaps (g : List (Str × TranslationRow)) :
    List (Str × Str) × List (Str × Str) × List (Str × Str) :=
  g.foldl buildMapsStep ([], [], [])

/-- A MongoDB chapter document (lines 151-158).  The two timestamps record the
`datetime.utcnow()` value at assembly time, modelled as an abstract clock
reading passed in by the caller. -/
structure MongoChapter where
  number : Int
  title : List (Str × Str)
  content : List (Str × Str)
  summary : List (Str × Str)
  created_at : Int
  updated_at : Int
deriving DecidableEq

/-- Assemble one chapter (lines 102-159): build the three maps from the
chapter's translation group and emit the document only if `'english' in
titles` (line 150); otherwise the chapter is dropped. -/
def assembleChapter (now : Int) (grouped : List (Int × List (Str × TranslationRow)))
    (ch : ChapterRow) : Option MongoChapter :=
  let g := (dictGet? ch.id grouped).getD []
  let bm := buildMaps g
  if hasKey (str "english") bm.1 then
    some ⟨ch.chapter_number, bm.1, bm.2.1, bm.2.2, now, now⟩
  else none

/-- Stable insertion (by ascending `key`) of `x` in front of the first element
whose key is not smaller; used to model Python's stable `list.sort(key=...)`. -/
def insertByNum {α : Type} (key : α → Int) (x : α) : List α → List α
  | [] => [x]
  | y :: rest =>
    if key y < key x then y :: insertByNum key x rest else x :: y :: rest

/-- Stable sort by an integer key, modelling `list.sort(key=lambda x: ...)`
(line 162): equal keys keep their input order. -/
def sortByNum {α : Type} (key : α → Int) (l : List α) : List α :=
  l.foldr (insertByNum key) []

/-- The assembled documents before the final sort (the loop of lines 100-159). -/
def assembledUnsorted (pd : ParsedData) (now : Int) : List MongoChapter :=
  pd.chapters.filterMap (assembleChapter now (groupTranslations pd.translations))

/-- `convert_to_mongodb_format` (lines 85-164). -/
def convert_to_mongodb_format (pd : ParsedData) (now : Int) : List MongoChapter :=
  sortByNum (fun c => c.number) (assembledUnsorted pd now)

/-- The content of an assembled chapter without its clock-dependent
timestamps; used to state determinism of assembly. -/
structure ChapterView where
  number : Int
  title : List (Str × Str)
  content : List (Str × Str)
  summary : List (Str × Str)
deriving DecidableEq

/-- Forget the timestamps of an assembled chapter. -/
def viewOf (c : MongoChapter) : ChapterView :=
  ⟨c.number, c.title, c.content, c.summary⟩

/-! ## Chapter search (`server.py`, lines 538-554) -/

/-- `startsWith q s`: `q` is a prefix of `s`. -/
def startsWith : Str → Str → Bool
  | [], _ => true
  | _ :: _, [] => false
  | a :: qs, b :: ss => decide (a = b) && startsWith qs ss

/-- `isSubstr q s`: `q` occurs contiguously inside `s`. -/
def isSubstr (q : Str) : Str → Bool
  | [] => startsWith q []
  | c :: rest => startsWith q (c :: rest) || isSubstr q rest

/-- Case-insensitive substring test, the semantics of Mongo's
`{"$regex": q, "$options": "i"}` for a metacharacter-free query. -/
def containsCI (q s : Str) : Bool :=
  isSubstr (q.map Char.toLower) (s.map Char.toLower)

/-- Whether one multilingual field of a stored chapter matches the query in
the requested language; a missing language key never matches. -/
def fieldMatches (q : Str) (f : Option Str) : Bool :=
  match f with
  | none => false
  | some s => containsCI q s

/-- The `$or` filter of the search query: title, content or summary in the
requested language matches. -/
def chapterMatches (q lang : Str) (c : MongoChapter) : Bool :=
  fieldMatches q (dictGet? lang c.title) ||
  fieldMatches q (dictGet? lang c.content) ||
  fieldMatches q (dictGet? lang c.summary)

/-- `GET /api/search` (lines 538-554): queries shorter than 3 characters are
rejected with HTTP 400 before the store is consulted; otherwise the store is
filtered by the case-insensitive three-field match, sorted ascending by
`number`, and truncated to 20 documents. -/
def search_chapters (store : List MongoChapter) (q lang : Str) :
    Except (Nat × Str) (List MongoChapter) :=
  if q.length < 3 then
    .error (400, str "Search query must be at least 3 characters")
  else
    .ok ((sortByNum (fun c => c.number) (store.filter (chapterMatches q lang))).take 20)

/-! ## Newline-run toolkit -/

theorem length_dropWhile_le {α : Type} (p : α → Bool) (l : List α) :
    (List.dropWhile p l).length ≤ l.length := by
  induction l with
  | nil => simp
  | cons a t ih =>
    rw [List.dropWhile_cons]
    split
    · exact Nat.le_trans ih (by simp)
    · simp

theorem nlRunLensAux_nl (t : Str) (k : Nat) :
    nlRunLensAux ('\n' :: t) k = nlRunLensAux t (k + 1) := by
  simp [nlRunLensAux]

theorem nlRunLensAux_other {c : Char} (hc : c ≠ '\n') (t : Str) (k : Nat) :
    nlRunLensAux (c :: t) k = flushNL k ++ nlRunLensAux t 0 := by
  simp [nlRunLensAux, hc]

theorem mem_flushNL {j k : Nat} (h : j ∈ flushNL k) : j = k := by
  unfold flushNL at h
  split at h
  · simp at h
  · simpa using h

theorem self_mem_flushNL {k : Nat} (hk : k ≠ 0) : k ∈ flushNL k := by
  simp [flushNL, hk]

theorem nlRunLensAux_replicate_append (m : Nat) (l : Str) (k : Nat) :
    nlRunLensAux (List.replicate m '\n' ++ l) k = nlRunLensAux l (k + m) := by
  induction m generalizing k with
  | zero => simp
  | succ n ih =>
    rw [List.replicate_succ, List.cons_append, nlRunLensAux_nl, ih]
    congr 1
    omega

theorem nlRunLensAux_replicate (m : Nat) (k : Nat) :
    nlRunLensAux (List.replicate m '\n') k = flushNL (k + m) := by
  have h := nlRunLensAux_replicate_append m [] k
  simpa [nlRunLensAux] using h

theorem emitNL_eq (n : Nat) : emitNL n = List.replicate (emitNLLen n) '\n' := by
  unfold emitNL emitNLLen
  split
  · rfl
  · rfl

theorem emitNLLen_le (n : Nat) : emitNLLen n ≤ 2 := by
  unfold emitNLLen
  split
  · omega
  · omega

/-- Every maximal newline run of the output of the 3+-newline collapse has
length at most 2. -/
theorem runs_collapse3NLAux (s : Str) :
    ∀ n, ∀ j ∈ nlRunLens (collapse3NLAux s n), j ≤ 2 := by
  induction s with
  | nil =>
    intro n j hj
    rw [show collapse3NLAux [] n = emitNL n from rfl, emitNL_eq, nlRunLens,
      nlRunLensAux_replicate] at hj
    have := mem_flushNL hj
    have := emitNLLen_le n
    omega
  | cons c t ih =>
    intro n j hj
    by_cases hc : c = '\n'
    · subst hc
      rw [show collapse3NLAux ('\n' :: t) n = collapse3NLAux t (n + 1) by
        simp [collapse3NLAux]] at hj
      exact ih (n + 1) j hj
    · rw [show collapse3NLAux (c :: t) n = emitNL n ++ c :: collapse3NLAux t 0 by
        simp [collapse3NLAux, hc]] at hj
      rw [emitNL_eq, nlRunLens, nlRunLensAux_replicate_append,
        nlRunLensAux_other hc] at hj
      rcases List.mem_append.1 hj with h | h
      · have := mem_flushNL h
        have := emitNLLen_le n
        omega
      · exact ih 0 j h

/-- If every maximal newline run of the input (with `k` pending newlines) has
length at most 2, then every maximal newline run of the output of the
single-newline-to-space substitution has length exactly 2. -/
theorem runs_singleNLAux (s : Str) :
    ∀ k, (∀ j ∈ nlRunLensAux s k, j ≤ 2) →
      ∀ j ∈ nlRunLens (singleNLAux s k), j = 2 := by
  induction s with
  | nil =>
    intro k hk j hj
    have hk2 : k ≤ 2 := by
      rcases Nat.eq_zero_or_pos k with h0 | h0
      · omega
      · exact hk k (by simpa [nlRunLensAux] using self_mem_flushNL (by omega))
    rw [show singleNLAux [] k = emitNL1 k from rfl] at hj
    interval_cases k
    · simp [emitNL1, nlRunLens, nlRunLensAux, flushNL] at hj
    · simp [emitNL1, nlRunLens, nlRunLensAux, flushNL] at hj
    · simp only [show emitNL1 2 = ['\n', '\n'] from rfl] at hj
      rw [nlRunLens, nlRunLensAux_nl, nlRunLensAux_nl] at hj
      simpa [nlRunLensAux, flushNL] using hj
  | cons c t ih =>
    intro k hk j hj
    by_cases hc : c = '\n'
    · subst hc
      rw [nlRunLensAux_nl] at hk
      rw [show singleNLAux ('\n' :: t) k = singleNLAux t (k + 1) by
        simp [singleNLAux]] at hj
      exact ih (k + 1) hk j hj
    · rw [nlRunLensAux_other hc] at hk
      have ht : ∀ j ∈ nlRunLensAux t 0, j ≤ 2 := fun j hj =>
        hk j (List.mem_append.2 (Or.inr hj))
      have hk2 : k ≤ 2 := by
        rcases Nat.eq_zero_or_pos k with h0 | h0
        · omega
        · exact hk k (List.mem_append.2 (Or.inl (self_mem_flushNL (by omega))))
      rw [show singleNLAux (c :: t) k = emitNL1 k ++ c :: singleNLAux t 0 by
        simp [singleNLAux, hc]] at hj
      interval_cases k
      · rw [show emitNL1 0 = [] from rfl, List.nil_append, nlRunLens,
          nlRunLensAux_other hc] at hj
        simp only [flushNL, if_pos rfl, List.nil_append] at hj
        exact ih 0 ht j hj
      · rw [show emitNL1 1 = [' '] from rfl, List.singleton_append, nlRunLens,
          nlRunLensAux_other (by decide : (' ' : Char) ≠ '\n'),
          nlRunLensAux_other hc] at hj
        simp only [flushNL, if_pos rfl, List.nil_append] at hj
        exact ih 0 ht j hj
      · rw [show emitNL1 2 = ['\n', '\n'] from rfl] at hj
        rw [show (['\n', '\n'] : Str) ++ c :: singleNLAux t 0 =
          '\n' :: '\n' :: (c :: singleNLAux t 0) from rfl, nlRunLens,
          nlRunLensAux_nl, nlRunLensAux_nl, nlRunLensAux_other hc] at hj
        rcases List.mem_append.1 hj with h | h
        · exact mem_flushNL h
        · exact ih 0 ht j h

/-- Collapsing space runs never changes the newline-run structure (the kept
space still separates the runs).  The side condition records that the
in-a-space-run flag can only be set when no newline is pending. -/
theorem nlRunLensAux_collapseSpacesAux (s : Str) :
    ∀ (b : Bool) (k : Nat), (b = true → k = 0) →
      nlRunLensAux (collapseSpacesAux s b) k = nlRunLensAux s k := by
  induction s with
  | nil => intro b k _; rfl
  | cons c t ih =>
    intro b k hbk
    by_cases hsp : c = ' '
    · subst hsp
      cases b with
      | true =>
        have hk0 : k = 0 := hbk rfl
        subst hk0
        rw [show collapseSpacesAux (' ' :: t) true = collapseSpacesAux t true by
          simp [collapseSpacesAux], ih true 0 (fun _ => rfl),
          nlRunLensAux_other (by decide : (' ' : Char) ≠ '\n')]
        simp [flushNL]
      | false =>
        rw [show collapseSpacesAux (' ' :: t) false =
          ' ' :: collapseSpacesAux t true by simp [collapseSpacesAux],
          nlRunLensAux_other (by decide : (' ' : Char) ≠ '\n'),
          ih true 0 (fun _ => rfl),
          nlRunLensAux_other (by decide : (' ' : Char) ≠ '\n')]
    · by_cases hnl : c = '\n'
      · subst hnl
        rw [show collapseSpacesAux ('\n' :: t) b =
          '\n' :: collapseSpacesAux t false by simp [collapseSpacesAux],
          nlRunLensAux_nl, nlRunLensAux_nl, ih false (k + 1) (by simp)]
      · rw [show collapseSpacesAux (c :: t) b = c :: collapseSpacesAux t false by
          simp [collapseSpacesAux, hsp],
          nlRunLensAux_other hnl, ih false 0 (by simp), nlRunLensAux_other hnl]

/-- Dropping leading whitespace from a string whose newline runs all have
length 2 either does nothing or leaves a string whose runs all have length 2
(a run is never split: `dropWhile` cannot stop inside one). -/
theorem dropWhile_runs2 (s : Str) :
    ∀ k : Nat, (∀ j ∈ nlRunLensAux s k, j = 2) →
      List.dropWhile isPySpace s = s ∨
        ∀ j ∈ nlRunLens (List.dropWhile isPySpace s), j = 2 := by
  induction s with
  | nil => intro k _; exact Or.inl rfl
  | cons c t ih =>
    intro k hk
    by_cases hw : isPySpace c = true
    · rw [List.dropWhile_cons, if_pos hw]
      have step : ∀ k', (∀ j ∈ nlRunLensAux t k', j = 2) →
          List.dropWhile isPySpace t = t ∨
            ∀ j ∈ nlRunLens (List.dropWhile isPySpace t), j = 2 := ih
      by_cases hnl : c = '\n'
      · subst hnl
        rw [nlRunLensAux_nl] at hk
        rcases step (k + 1) hk with heq | h
        · right
          rw [heq]
          cases t with
          | nil => simp [nlRunLens, nlRunLensAux, flushNL]
          | cons d u =>
            have hpd : isPySpace d = false := by
              by_contra hpd
              rw [List.dropWhile_cons, if_pos (by simpa using hpd)] at heq
              have := length_dropWhile_le isPySpace u
              have : (d :: u).length ≤ u.length := heq ▸ this
              simp at this
            have hdnl : d ≠ '\n' := by
              intro hd; subst hd; simp [isPySpace] at hpd
            intro j hj
            rw [nlRunLens, nlRunLensAux_other hdnl] at hj
            rw [nlRunLensAux_other hdnl] at hk
            simp only [flushNL, if_pos rfl, List.nil_append] at hj
            exact hk j (List.mem_append.2 (Or.inr hj))
        · exact Or.inr h
      · rw [nlRunLensAux_other hnl] at hk
        have ht : ∀ j ∈ nlRunLensAux t 0, j = 2 := fun j hj =>
          hk j (List.mem_append.2 (Or.inr hj))
        rcases step 0 ht with heq | h
        · right
          rw [heq]
          cases t with
          | nil => simp [nlRunLens, nlRunLensAux, flushNL]
          | cons d u =>
            have hpd : isPySpace d = false := by
              by_contra hpd
              rw [List.dropWhile_cons, if_pos (by simpa using hpd)] at heq
              have := length_dropWhile_le isPySpace u
              have : (d :: u).length ≤ u.length := heq ▸ this
              simp at this
            have hdnl : d ≠ '\n' := by
              intro hd; subst hd; simp [isPySpace] at hpd
            intro j hj
            rw [nlRunLens, nlRunLensAux_other hdnl] at hj
            rw [nlRunLensAux_other hdnl] at ht
            simp only [flushNL, if_pos rfl, List.nil_append] at hj ht
            exact ht j hj
        · exact Or.inr h
    · left
      rw [List.dropWhile_cons, if_neg (by simpa using hw)]

/-- Dropping trailing whitespace from a string whose newline runs all have
length 2 leaves either the empty string or a string with the same property
(trailing whitespace removal never splits a run either). -/
theorem pyStripRight_runs2 (s : Str) :
    ∀ k : Nat, (∀ j ∈ nlRunLensAux s k, j = 2) →
      pyStripRight s = [] ∨ ∀ j ∈ nlRunLensAux (pyStripRight s) k, j = 2 := by
  induction s with
  | nil => intro k _; exact Or.inl rfl
  | cons c t ih =>
    intro k hk
    show pyStripRight (c :: t) = [] ∨ _
    rw [pyStripRight]
    split
    · exact Or.inl rfl
    · rename_i hcond
      right
      by_cases hnl : c = '\n'
      · subst hnl
        have hr : pyStripRight t ≠ [] := by
          intro h0
          exact hcond ⟨h0, by simp [isPySpace]⟩
        rw [nlRunLensAux_nl] at hk
        rcases ih (k + 1) hk with h0 | h
        · exact absurd h0 hr
        · rw [nlRunLensAux_nl]
          exact h
      · rw [nlRunLensAux_other hnl] at hk
        have ht : ∀ j ∈ nlRunLensAux t 0, j = 2 := fun j hj =>
          hk j (List.mem_append.2 (Or.inr hj))
        rw [nlRunLensAux_other hnl]
        rcases ih 0 ht with h0 | h
        · rw [h0]
          intro j hj
          rcases List.mem_append.1 hj with hjf | hjf
          · exact hk j (List.mem_append.2 (Or.inl hjf))
          · simp [nlRunLensAux, flushNL] at hjf
        · intro j hj
          rcases List.mem_append.1 hj with hjf | hjf
          · exact hk j (List.mem_append.2 (Or.inl hjf))
          · exact h j hjf

/-- Every maximal newline run of the output of `clean_text` has length
exactly 2. -/
theorem runs_cleanText (s : Str) : ∀ j ∈ nlRunLens (cleanText s), j = 2 := by
  unfold cleanText
  split
  · rename_i hnil
    subst hnil
    simp [nlRunLens, nlRunLensAux, flushNL]
  · have h1 : ∀ j ∈ nlRunLensAux (collapse3NL (replaceLitNL s)) 0, j ≤ 2 :=
      runs_collapse3NLAux (replaceLitNL s) 0
    have h2 : ∀ j ∈ nlRunLens (singleNLtoSpace (collapse3NL (replaceLitNL s))), j = 2 :=
      runs_singleNLAux (collapse3NL (replaceLitNL s)) 0 h1
    set y := singleNLtoSpace (collapse3NL (replaceLitNL s)) with hy
    have h3 : ∀ j ∈ nlRunLensAux (collapseSpaces y) 0, j = 2 := by
      rw [collapseSpaces, nlRunLensAux_collapseSpacesAux y false 0 (by simp)]
      exact h2
    set z := collapseSpaces y with hz
    have h4 : ∀ j ∈ nlRunLensAux (List.dropWhile isPySpace z) 0, j = 2 := by
      rcases dropWhile_runs2 z 0 h3 with heq | h
      · rw [heq]; exact h3
      · exact h
    rcases pyStripRight_runs2 (List.dropWhile isPySpace z) 0 h4 with heq | h
    · rw [pyStrip, heq]
      simp [nlRunLens, nlRunLensAux, flushNL]
    · exact h

/-! ## Adjacent-pair toolkit (used for the idempotence proof) -/

theorem hasPair_cons (a b x : Char) (l : Str) :
    hasPair a b (x :: l) =
      ((decide (x = a ∧ l.head? = some b)) || hasPair a b l) := by
  cases l with
  | nil => simp [hasPair]
  | cons y rest => simp [hasPair]

theorem hasPair_tail {a b x : Char} {l : Str} (h : hasPair a b (x :: l) = false) :
    hasPair a b l = false := by
  rw [hasPair_cons, Bool.or_eq_false_iff] at h
  exact h.2

theorem hasPair_junk_append {a b : Char} (x : Str) {l : Str}
    (hx : ∀ c ∈ x, c ≠ a) :
    hasPair a b (x ++ l) = hasPair a b l := by
  induction x with
  | nil => rfl
  | cons c xs ih =>
    have hca : c ≠ a := hx c (by simp)
    rw [List.cons_append, hasPair_cons, ih (fun d hd => hx d (by simp [hd]))]
    simp [hca]

/-- The first character of the literal-newline decoding of a nonempty string
is the original first character or a newline. -/
theorem head?_replaceLitNL (c : Char) (l : Str) :
    (replaceLitNL (c :: l)).head? = some c ∨
      (replaceLitNL (c :: l)).head? = some '\n' := by
  cases l with
  | nil => left; rfl
  | cons d u =>
    rw [replaceLitNL]
    split
    · right; rfl
    · left; rfl

/-- After `text.replace('\\n', '\n')` no literal backslash-n pair remains. -/
theorem replaceLitNL_noBSn (s : Str) : hasPair '\\' 'n' (replaceLitNL s) = false := by
  induction s using replaceLitNL.induct with
  | case1 => rfl
  | case2 c => rfl
  | case3 a b rest h ih =>
    rw [replaceLitNL, if_pos h, hasPair_cons, ih]
    simp
  | case4 a b rest h ih =>
    rw [replaceLitNL, if_neg h, hasPair_cons, ih]
    simp only [Bool.or_false, decide_eq_false_iff_not]
    rintro ⟨rfl, hhd⟩
    rcases head?_replaceLitNL b rest with he | he <;> rw [he] at hhd
    · exact h ⟨rfl, by injection hhd⟩
    · injection hhd with hh
      exact absurd hh (by decide)

theorem head?_replicate_append {m : Nat} (hm : 1 ≤ m) (l : Str) :
    (List.replicate m '\n' ++ l).head? = some '\n' := by
  cases m with
  | zero => omega
  | succ n => rw [List.replicate_succ]; rfl

theorem head?_collapse3NLAux_pos (t : Str) :
    ∀ k, 1 ≤ k → (collapse3NLAux t k).head? = some '\n' := by
  induction t with
  | nil =>
    intro k hk
    rw [show collapse3NLAux [] k = emitNL k from rfl, emitNL_eq,
      show List.replicate (emitNLLen k) '\n' =
        List.replicate (emitNLLen k) '\n' ++ [] by simp]
    exact head?_replicate_append (by unfold emitNLLen; split <;> omega) []
  | cons c u ih =>
    intro k hk
    by_cases hc : c = '\n'
    · subst hc
      rw [show collapse3NLAux ('\n' :: u) k = collapse3NLAux u (k + 1) by
        simp [collapse3NLAux]]
      exact ih (k + 1) (by omega)
    · rw [show collapse3NLAux (c :: u) k = emitNL k ++ c :: collapse3NLAux u 0 by
        simp [collapse3NLAux, hc], emitNL_eq]
      exact head?_replicate_append (by unfold emitNLLen; split <;> omega) _

theorem head?_collapse3NLAux_zero (t : Str) :
    (collapse3NLAux t 0).head? = t.head? ∨
      (collapse3NLAux t 0).head? = some '\n' := by
  cases t with
  | nil => left; rfl
  | cons c u =>
    by_cases hc : c = '\n'
    · subst hc
      right
      rw [show collapse3NLAux ('\n' :: u) 0 = collapse3NLAux u 1 by
        simp [collapse3NLAux]]
      exact head?_collapse3NLAux_pos u 1 (by omega)
    · left
      rw [show collapse3NLAux (c :: u) 0 = emitNL 0 ++ c :: collapse3NLAux u 0 by
        simp [collapse3NLAux, hc]]
      rfl

/-- The 3+-newline collapse inserts only newlines, so it cannot create an
adjacency of two non-newline characters. -/
theorem collapse3NLAux_pairfree {a b : Char} (ha : a ≠ '\n') (hb : b ≠ '\n')
    (s : Str) : ∀ k, hasPair a b s = false →
      hasPair a b (collapse3NLAux s k) = false := by
  induction s with
  | nil =>
    intro k _
    rw [show collapse3NLAux [] k = emitNL k from rfl, emitNL_eq,
      show List.replicate (emitNLLen k) '\n' =
        List.replicate (emitNLLen k) '\n' ++ [] by simp,
      hasPair_junk_append _ (fun d hd => by
        have hd2 : d = '\n' := List.eq_of_mem_replicate hd
        subst hd2
        exact fun h => ha h.symm)]
    rfl
  | cons c t ih =>
    intro k hs
    by_cases hc : c = '\n'
    · subst hc
      rw [show collapse3NLAux ('\n' :: t) k = collapse3NLAux t (k + 1) by
        simp [collapse3NLAux]]
      exact ih (k + 1) (hasPair_tail hs)
    · have h1 : ¬(c = a ∧ t.head? = some b) := by
        rw [hasPair_cons, Bool.or_eq_false_iff] at hs
        simpa using hs.1
      rw [show collapse3NLAux (c :: t) k = emitNL k ++ c :: collapse3NLAux t 0 by
        simp [collapse3NLAux, hc], emitNL_eq,
      hasPair_junk_append _ (fun d hd => by
        have hd2 : d = '\n' := List.eq_of_mem_replicate hd
        subst hd2
        exact fun h => ha h.symm),
      hasPair_cons, ih 0 (hasPair_tail hs)]
      simp only [Bool.or_false, decide_eq_false_iff_not]
      rintro ⟨rfl, hhd⟩
      rcases head?_collapse3NLAux_zero t with he | he <;> rw [he] at hhd
      · exact h1 ⟨rfl, hhd⟩
      · injection hhd with hh
        exact hb hh.symm

theorem head?_singleNLAux_pos (t : Str) :
    ∀ k, 1 ≤ k → (singleNLAux t k).head? = some ' ' ∨
      (singleNLAux t k).head? = some '\n' := by
  induction t with
  | nil =>
    intro k hk
    rw [show singleNLAux [] k = emitNL1 k from rfl]
    unfold emitNL1
    split
    · left; rfl
    · right
      rw [show List.replicate k '\n' = List.replicate k '\n' ++ [] by simp]
      exact head?_replicate_append hk []
  | cons c u ih =>
    intro k hk
    by_cases hc : c = '\n'
    · subst hc
      rw [show singleNLAux ('\n' :: u) k = singleNLAux u (k + 1) by
        simp [singleNLAux]]
      exact ih (k + 1) (by omega)
    · rw [show singleNLAux (c :: u) k = emitNL1 k ++ c :: singleNLAux u 0 by
        simp [singleNLAux, hc]]
      unfold emitNL1
      split
      · left; rfl
      · right; exact head?_replicate_append hk _

theorem head?_singleNLAux_zero (t : Str) :
    (singleNLAux t 0).head? = t.head? ∨ (singleNLAux t 0).head? = some ' ' ∨
      (singleNLAux t 0).head? = some '\n' := by
  cases t with
  | nil => left; rfl
  | cons c u =>
    by_cases hc : c = '\n'
    · subst hc
      rw [show singleNLAux ('\n' :: u) 0 = singleNLAux u 1 by simp [singleNLAux]]
      exact Or.inr (head?_singleNLAux_pos u 1 (by omega))
    · left
      rw [show singleNLAux (c :: u) 0 = emitNL1 0 ++ c :: singleNLAux u 0 by
        simp [singleNLAux, hc]]
      rfl

/-- The single-newline-to-space substitution only replaces newlines by spaces,
so it cannot create an adjacency of two characters that are neither newlines
nor spaces. -/
theorem singleNLAux_pairfree {a b : Char} (ha1 : a ≠ '\n') (ha2 : a ≠ ' ')
    (hb1 : b ≠ '\n') (hb2 : b ≠ ' ') (s : Str) :
    ∀ k, hasPair a b s = false → hasPair a b (singleNLAux s k) = false := by
  have hjunk : ∀ k, ∀ d ∈ emitNL1 k, d ≠ a := by
    intro k d hd
    unfold emitNL1 at hd
    split at hd
    · simp at hd
      subst hd
      exact fun h => ha2 h.symm
    · have hd2 : d = '\n' := List.eq_of_mem_replicate hd
      subst hd2
      exact fun h => ha1 h.symm
  induction s with
  | nil =>
    intro k _
    rw [show singleNLAux [] k = emitNL1 k from rfl,
      show emitNL1 k = emitNL1 k ++ [] by simp,
      hasPair_junk_append _ (hjunk k)]
    rfl
  | cons c t ih =>
    intro k hs
    by_cases hc : c = '\n'
    · subst hc
      rw [show singleNLAux ('\n' :: t) k = singleNLAux t (k + 1) by
        simp [singleNLAux]]
      exact ih (k + 1) (hasPair_tail hs)
    · have h1 : ¬(c = a ∧ t.head? = some b) := by
        rw [hasPair_cons, Bool.or_eq_false_iff] at hs
        simpa using hs.1
      rw [show singleNLAux (c :: t) k = emitNL1 k ++ c :: singleNLAux t 0 by
        simp [singleNLAux, hc],
      hasPair_junk_append _ (hjunk k),
      hasPair_cons, ih 0 (hasPair_tail hs)]
      simp only [Bool.or_false, decide_eq_false_iff_not]
      rintro ⟨rfl, hhd⟩
      rcases head?_singleNLAux_zero t with he | he | he <;> rw [he] at hhd
      · exact h1 ⟨rfl, hhd⟩
      · injection hhd with hh; exact hb2 hh.symm
      · injection hhd with hh; exact hb1 hh.symm

theorem head?_collapseSpacesAux_false (t : Str) :
    (collapseSpacesAux t false).head? = t.head? := by
  cases t with
  | nil => rfl
  | cons c u =>
    by_cases hc : c = ' '
    · subst hc
      rw [show collapseSpacesAux (' ' :: u) false =
        ' ' :: collapseSpacesAux u true by simp [collapseSpacesAux]]
      rfl
    · rw [show collapseSpacesAux (c :: u) false =
        c :: collapseSpacesAux u false by simp [collapseSpacesAux, hc]]
      rfl

/-- Collapsing space runs keeps one space per run, so it cannot create an
adjacency whose first character is not a space. -/
theorem collapseSpacesAux_pairfree {a b : Char} (ha : a ≠ ' ') (s : Str) :
    ∀ bb, hasPair a b s = false → hasPair a b (collapseSpacesAux s bb) = false := by
  induction s with
  | nil => intro bb _; rfl
  | cons c t ih =>
    intro bb hs
    by_cases hc : c = ' '
    · subst hc
      cases bb with
      | true =>
        rw [show collapseSpacesAux (' ' :: t) true = collapseSpacesAux t true by
          simp [collapseSpacesAux]]
        exact ih true (hasPair_tail hs)
      | false =>
        rw [show collapseSpacesAux (' ' :: t) false =
          ' ' :: collapseSpacesAux t true by simp [collapseSpacesAux],
          hasPair_cons, ih true (hasPair_tail hs)]
        simp only [Bool.or_false, decide_eq_false_iff_not]
        rintro ⟨rfl, _⟩
        exact ha rfl
    · have h1 : ¬(c = a ∧ t.head? = some b) := by
        rw [hasPair_cons, Bool.or_eq_false_iff] at hs
        simpa using hs.1
      rw [show collapseSpacesAux (c :: t) bb = c :: collapseSpacesAux t false by
        simp [collapseSpacesAux, hc],
        hasPair_cons, ih false (hasPair_tail hs), head?_collapseSpacesAux_false]
      simp only [Bool.or_false, decide_eq_false_iff_not]
      rintro ⟨rfl, hhd⟩
      exact h1 ⟨rfl, hhd⟩

theorem head?_collapseSpacesAux_true (t : Str) :
    (collapseSpacesAux t true).head? ≠ some ' ' := by
  induction t with
  | nil => simp [collapseSpacesAux]
  | cons c u ih =>
    by_cases hc : c = ' '
    · subst hc
      rw [show collapseSpacesAux (' ' :: u) true = collapseSpacesAux u true by
        simp [collapseSpacesAux]]
      exact ih
    · rw [show collapseSpacesAux (c :: u) true = c :: collapseSpacesAux u false by
        simp [collapseSpacesAux, hc]]
      simpa using hc

/-- The output of the space-run collapse contains no two adjacent spaces. -/
theorem collapseSpacesAux_noDS (s : Str) :
    ∀ bb, hasPair ' ' ' ' (collapseSpacesAux s bb) = false := by
  induction s with
  | nil => intro bb; rfl
  | cons c t ih =>
    intro bb
    by_cases hc : c = ' '
    · subst hc
      cases bb with
      | true =>
        rw [show collapseSpacesAux (' ' :: t) true = collapseSpacesAux t true by
          simp [collapseSpacesAux]]
        exact ih true
      | false =>
        rw [show collapseSpacesAux (' ' :: t) false =
          ' ' :: collapseSpacesAux t true by simp [collapseSpacesAux],
          hasPair_cons, ih true]
        simp only [Bool.or_false, decide_eq_false_iff_not]
        rintro ⟨_, hhd⟩
        exact head?_collapseSpacesAux_true t hhd
    · rw [show collapseSpacesAux (c :: t) bb = c :: collapseSpacesAux t false by
        simp [collapseSpacesAux, hc],
        hasPair_cons, ih false]
      simp only [Bool.or_false, decide_eq_false_iff_not]
      rintro ⟨rfl, _⟩
      exact hc rfl

theorem dropWhile_pairfree {a b : Char} {p : Char → Bool} (s : Str)
    (hs : hasPair a b s = false) :
    hasPair a b (List.dropWhile p s) = false := by
  induction s with
  | nil => exact hs
  | cons c t ih =>
    rw [List.dropWhile_cons]
    split
    · exact ih (hasPair_tail hs)
    · exact hs

theorem head?_pyStripRight (t : Str) :
    pyStripRight t = [] ∨ (pyStripRight t).head? = t.head? := by
  cases t with
  | nil => left; rfl
  | cons c u =>
    rw [pyStripRight]
    split
    · left; rfl
    · right; rfl

theorem pyStripRight_pairfree {a b : Char} (s : Str)
    (hs : hasPair a b s = false) :
    hasPair a b (pyStripRight s) = false := by
  induction s with
  | nil => exact hs
  | cons c t ih =>
    rw [pyStripRight]
    split
    · rfl
    · have h1 : ¬(c = a ∧ t.head? = some b) := by
        rw [hasPair_cons, Bool.or_eq_false_iff] at hs
        simpa using hs.1
      rw [hasPair_cons, ih (hasPair_tail hs)]
      simp only [Bool.or_false, decide_eq_false_iff_not]
      rintro ⟨rfl, hhd⟩
      rcases head?_pyStripRight t with h0 | h0
      · rw [h0] at hhd
        simp at hhd
      · rw [h0] at hhd
        exact h1 ⟨rfl, hhd⟩

/-! ## Fixpoint lemmas: each stage is the identity on already-normalized text -/

theorem replaceLitNL_id (t : Str) (h : hasPair '\\' 'n' t = false) :
    replaceLitNL t = t := by
  induction t using replaceLitNL.induct with
  | case1 => rfl
  | case2 c => rfl
  | case3 a b rest hab ih =>
    exfalso
    obtain ⟨rfl, rfl⟩ := hab
    simp [hasPair] at h
  | case4 a b rest hab ih =>
    rw [replaceLitNL, if_neg hab, ih (hasPair_tail h)]

theorem replicate_cons_self (k : Nat) (c : Char) (l : Str) :
    List.replicate k c ++ c :: l = List.replicate (k + 1) c ++ l := by
  induction k with
  | zero => rfl
  | succ n ih => simp [List.replicate_succ, ih]

theorem collapse3NLAux_id (s : Str) :
    ∀ k, (∀ j ∈ nlRunLensAux s k, j ≤ 2) →
      collapse3NLAux s k = List.replicate k '\n' ++ s := by
  induction s with
  | nil =>
    intro k hk
    have hk2 : k ≤ 2 := by
      rcases Nat.eq_zero_or_pos k with h0 | h0
      · omega
      · exact hk k (by simpa [nlRunLensAux] using self_mem_flushNL (by omega))
    rw [show collapse3NLAux [] k = emitNL k from rfl, emitNL_eq]
    unfold emitNLLen
    rw [if_neg (by omega)]
    simp
  | cons c t ih =>
    intro k hk
    by_cases hc : c = '\n'
    · subst hc
      rw [nlRunLensAux_nl] at hk
      rw [show collapse3NLAux ('\n' :: t) k = collapse3NLAux t (k + 1) by
        simp [collapse3NLAux], ih (k + 1) hk, ← replicate_cons_self]
    · rw [nlRunLensAux_other hc] at hk
      have hk2 : k ≤ 2 := by
        rcases Nat.eq_zero_or_pos k with h0 | h0
        · omega
        · exact hk k (List.mem_append.2 (Or.inl (self_mem_flushNL (by omega))))
      rw [show collapse3NLAux (c :: t) k = emitNL k ++ c :: collapse3NLAux t 0 by
        simp [collapse3NLAux, hc],
        ih 0 (fun j hj => hk j (List.mem_append.2 (Or.inr hj))),
        emitNL_eq]
      unfold emitNLLen
      rw [if_neg (by omega)]
      simp

theorem singleNLAux_id (s : Str) :
    ∀ k, (∀ j ∈ nlRunLensAux s k, j ≠ 1) →
      singleNLAux s k = List.replicate k '\n' ++ s := by
  induction s with
  | nil =>
    intro k hk
    have hk1 : k ≠ 1 := by
      intro h1
      exact hk 1 (by simpa [nlRunLensAux, h1] using self_mem_flushNL (by omega)) rfl
    rw [show singleNLAux [] k = emitNL1 k from rfl]
    unfold emitNL1
    rw [if_neg hk1]
    simp
  | cons c t ih =>
    intro k hk
    by_cases hc : c = '\n'
    · subst hc
      rw [nlRunLensAux_nl] at hk
      rw [show singleNLAux ('\n' :: t) k = singleNLAux t (k + 1) by
        simp [singleNLAux], ih (k + 1) hk, ← replicate_cons_self]
    · rw [nlRunLensAux_other hc] at hk
      have hk1 : k ≠ 1 := by
        intro h1
        subst h1
        exact hk 1 (List.mem_append.2 (Or.inl (self_mem_flushNL (by omega)))) rfl
      rw [show singleNLAux (c :: t) k = emitNL1 k ++ c :: singleNLAux t 0 by
        simp [singleNLAux, hc],
        ih 0 (fun j hj => hk j (List.mem_append.2 (Or.inr hj)))]
      unfold emitNL1
      rw [if_neg hk1]
      simp

theorem collapseSpacesAux_true_eq_false {t : Str}
    (h : t.head? ≠ some ' ') :
    collapseSpacesAux t true = collapseSpacesAux t false := by
  cases t with
  | nil => rfl
  | cons c u =>
    have hc : c ≠ ' ' := by
      intro h0
      exact h (by simp [h0])
    simp [collapseSpacesAux, hc]

theorem collapseSpaces_id (t : Str) (h : hasPair ' ' ' ' t = false) :
    collapseSpacesAux t false = t := by
  induction t with
  | nil => rfl
  | cons c u ih =>
    by_cases hc : c = ' '
    · subst hc
      have hu : u.head? ≠ some ' ' := by
        intro h0
        rw [hasPair_cons, Bool.or_eq_false_iff] at h
        have h1 : decide (' ' = ' ' ∧ u.head? = some ' ') = false := h.1
        rw [decide_eq_false_iff_not] at h1
        exact h1 ⟨rfl, h0⟩
      rw [show collapseSpacesAux (' ' :: u) false =
        ' ' :: collapseSpacesAux u true by simp [collapseSpacesAux],
        collapseSpacesAux_true_eq_false hu, ih (hasPair_tail h)]
    · rw [show collapseSpacesAux (c :: u) false =
        c :: collapseSpacesAux u false by simp [collapseSpacesAux, hc],
        ih (hasPair_tail h)]

theorem dropWhile_id {t : Str}
    (h : ∀ c, t.head? = some c → isPySpace c = false) :
    List.dropWhile isPySpace t = t := by
  cases t with
  | nil => rfl
  | cons c u => rw [List.dropWhile_cons, if_neg (by simp [h c rfl])]

theorem getLast?_cons_cons_eq (a b : Char) (l : Str) :
    (a :: b :: l).getLast? = (b :: l).getLast? := rfl

theorem getLast?_cons_cons_eq2 {α : Type} (a b : α) (l : List α) :
    (a :: b :: l).getLast? = (b :: l).getLast? := rfl

theorem pyStripRight_id (t : Str)
    (h : ∀ c, t.getLast? = some c → isPySpace c = false) :
    pyStripRight t = t := by
  induction t with
  | nil => rfl
  | cons c u ih =>
    cases u with
    | nil =>
      have hc : isPySpace c = false := h c rfl
      rw [pyStripRight]
      simp [pyStripRight, hc]
    | cons d v =>
      have hrec : pyStripRight (d :: v) = d :: v :=
        ih (fun c hc => h c ((getLast?_cons_cons_eq c d v).symm ▸ hc))
      rw [pyStripRight]
      simp only [hrec]
      rw [if_neg (by simp)]

/-! ## Shape of the normalizer output -/

theorem cleanText_noBSn (s : Str) : hasPair '\\' 'n' (cleanText s) = false := by
  unfold cleanText
  split
  · rename_i h0
    subst h0
    rfl
  · exact pyStripRight_pairfree _ (dropWhile_pairfree _
      (collapseSpacesAux_pairfree (by decide) _ false
        (singleNLAux_pairfree (by decide) (by decide) (by decide) (by decide) _ 0
          (collapse3NLAux_pairfree (by decide) (by decide) _ 0
            (replaceLitNL_noBSn s)))))

theorem cleanText_noDS (s : Str) : hasPair ' ' ' ' (cleanText s) = false := by
  unfold cleanText
  split
  · rename_i h0
    subst h0
    rfl
  · exact pyStripRight_pairfree _ (dropWhile_pairfree _
      (collapseSpacesAux_noDS _ false))

theorem head?_dropWhile_not (p : Char → Bool) (l : Str) :
    ∀ c, (List.dropWhile p l).head? = some c → p c = false := by
  induction l with
  | nil => intro c hc; simp at hc
  | cons d u ih =>
    intro c hc
    rw [List.dropWhile_cons] at hc
    split at hc
    · exact ih c hc
    · rename_i hd
      injection hc with hc2
      subst hc2
      simpa using hd

theorem getLast?_pyStripRight (s : Str) :
    ∀ c, (pyStripRight s).getLast? = some c → isPySpace c = false := by
  induction s with
  | nil => intro c hc; simp [pyStripRight] at hc
  | cons d u ih =>
    intro c hc
    rw [pyStripRight] at hc
    split at hc
    · simp at hc
    · rename_i hcond
      rcases heq : pyStripRight u with _ | ⟨e, v⟩
      · rw [heq] at hc
        simp at hc
        subst hc
        have hnw : ¬ isPySpace d = true := fun hw => hcond ⟨heq, hw⟩
        simpa using hnw
      · rw [heq, getLast?_cons_cons_eq] at hc
        rw [heq] at ih
        exact ih c hc

theorem head?_cleanText (s : Str) :
    ∀ c, (cleanText s).head? = some c → isPySpace c = false := by
  intro c hc
  unfold cleanText at hc
  split at hc
  · rename_i h0
    subst h0
    simp at hc
  · rw [pyStrip] at hc
    rcases head?_pyStripRight (List.dropWhile isPySpace
      (collapseSpaces (singleNLtoSpace (collapse3NL (replaceLitNL s))))) with h0 | h0
    · rw [h0] at hc
      simp at hc
    · rw [h0] at hc
      exact head?_dropWhile_not isPySpace _ c hc

theorem getLast?_cleanText (s : Str) :
    ∀ c, (cleanText s).getLast? = some c → isPySpace c = false := by
  intro c hc
  unfold cleanText at hc
  split at hc
  · rename_i h0
    subst h0
    simp at hc
  · exact getLast?_pyStripRight _ c hc

/-- `clean_text` is idempotent on strings. -/
theorem cleanText_idem (s : Str) : cleanText (cleanText s) = cleanText s := by
  by_cases ht : cleanText s = []
  · rw [ht]
    rfl
  · have hruns := runs_cleanText s
    have hle : ∀ j ∈ nlRunLensAux (cleanText s) 0, j ≤ 2 := fun j hj => by
      rw [hruns j hj]
    have hne1 : ∀ j ∈ nlRunLensAux (cleanText s) 0, j ≠ 1 := fun j hj => by
      rw [hruns j hj]
      omega
    conv_lhs => rw [cleanText]
    rw [if_neg ht, replaceLitNL_id _ (cleanText_noBSn s)]
    rw [show collapse3NL (cleanText s) = collapse3NLAux (cleanText s) 0 from rfl,
      collapse3NLAux_id _ 0 hle, List.replicate_zero, List.nil_append]
    rw [show singleNLtoSpace (cleanText s) = singleNLAux (cleanText s) 0 from rfl,
      singleNLAux_id _ 0 hne1, List.replicate_zero, List.nil_append]
    rw [show collapseSpaces (cleanText s) = collapseSpacesAux (cleanText s) false from rfl,
      collapseSpaces_id _ (cleanText_noDS s)]
    rw [pyStrip, dropWhile_id (head?_cleanText s),
      pyStripRight_id _ (getLast?_cleanText s)]

/-! ## Dictionary lemmas -/

theorem dictGet?_insert_self {K V : Type} [DecidableEq K] (k : K) (v : V)
    (d : List (K × V)) : dictGet? k (dictInsert k v d) = some v := by
  induction d with
  | nil => simp [dictInsert, dictGet?]
  | cons e rest ih =>
    rcases e with ⟨k', v'⟩
    by_cases h : k' = k
    · subst h
      simp [dictInsert, dictGet?]
    · simp [dictInsert, dictGet?, h, ih]

theorem dictGet?_insert_ne {K V : Type} [DecidableEq K] {k k' : K} (h : k' ≠ k)
    (v : V) (d : List (K × V)) : dictGet? k (dictInsert k' v d) = dictGet? k d := by
  induction d with
  | nil => simp [dictInsert, dictGet?, h]
  | cons e rest ih =>
    rcases e with ⟨k'', v''⟩
    by_cases h2 : k'' = k'
    · subst h2
      simp [dictInsert, dictGet?, h]
    · by_cases h3 : k'' = k
      · subst h3
        simp [dictInsert, dictGet?, h2]
      · simp [dictInsert, dictGet?, h2, h3, ih]

theorem hasKey_mem_keys {K V : Type} [DecidableEq K] (k : K) (d : List (K × V)) :
    hasKey k d = true ↔ ∃ e ∈ d, e.1 = k := by
  induction d with
  | nil => simp [hasKey, dictGet?]
  | cons e rest ih =>
    rcases e with ⟨k', v'⟩
    by_cases h : k' = k
    · subst h
      simp [hasKey, dictGet?]
    · simp only [hasKey, dictGet?, if_neg h]
      rw [hasKey] at ih
      rw [ih]
      constructor
      · rintro ⟨e, he, rfl⟩
        exact ⟨e, by simp [he], rfl⟩
      · rintro ⟨e, he, rfl⟩
        rcases List.mem_cons.1 he with h0 | h0
        · exact absurd (congrArg Prod.fst h0).symm h
        · exact ⟨e, h0, rfl⟩

theorem getLast?_eq_none_iff {α : Type} (l : List α) :
    l.getLast? = none ↔ l = [] := by
  induction l with
  | nil => simp
  | cons a t ih =>
    cases t with
    | nil => simp [List.getLast?]
    | cons b u =>
      rw [getLast?_cons_cons_eq2]
      rw [ih]
      simp

theorem mem_of_getLast? {α : Type} {l : List α} {x : α}
    (h : l.getLast? = some x) : x ∈ l := by
  induction l with
  | nil => simp at h
  | cons a t ih =>
    cases t with
    | nil =>
      simp [List.getLast?] at h
      simp [h]
    | cons b u =>
      rw [getLast?_cons_cons_eq2] at h
      exact List.mem_cons.2 (Or.inr (ih h))

/-! ## Grouping: last-write-wins characterization -/

theorem groupStep_lookup (d : List (Int × List (Str × TranslationRow)))
    (t : TranslationRow) (cid : Int) (lang : Str) :
    dictGet? lang ((dictGet? cid (groupStep d t)).getD []) =
      (if t.chapter_id = cid ∧ t.language = lang then some t
       else dictGet? lang ((dictGet? cid d).getD [])) := by
  unfold groupStep
  by_cases hcid : t.chapter_id = cid
  · rw [hcid, dictGet?_insert_self]
    by_cases hlang : t.language = lang
    · rw [hlang]
      simp [dictGet?_insert_self, hcid, hlang]
    · rw [if_neg (fun hand => hlang hand.2)]
      simp [dictGet?_insert_ne hlang]
  · rw [dictGet?_insert_ne hcid, if_neg (fun hand => hcid hand.1)]

theorem groupLoop_lookup (cid : Int) (lang : Str) (ts : List TranslationRow) :
    ∀ d, dictGet? lang ((dictGet? cid (ts.foldl groupStep d)).getD []) =
      ((ts.filter fun t => decide (t.chapter_id = cid ∧ t.language = lang)).getLast?).elim
        (dictGet? lang ((dictGet? cid d).getD [])) some := by
  induction ts with
  | nil => intro d; simp
  | cons t rest ih =>
    intro d
    rw [List.foldl_cons, ih (groupStep d t), groupStep_lookup, List.filter_cons]
    by_cases hP : t.chapter_id = cid ∧ t.language = lang
    · rw [if_pos hP, if_pos (by simpa using hP)]
      rcases hlast : (rest.filter fun t => decide (t.chapter_id = cid ∧ t.language = lang)).getLast?
        with _ | e
      · rw [(getLast?_eq_none_iff _).1 hlast]
        simp
      · cases hfr : rest.filter fun t => decide (t.chapter_id = cid ∧ t.language = lang) with
        | nil => rw [hfr] at hlast; simp at hlast
        | cons x xs =>
          rw [hfr] at hlast
          rw [getLast?_cons_cons_eq2, hlast]
          simp
    · rw [if_neg hP, if_neg (by simpa using hP)]

/-- The `(parentId, language)` lookup into the grouping equals the last
matching row of the input. -/
theorem groupTranslations_lookup (ts : List TranslationRow) (cid : Int) (lang : Str) :
    dictGet? lang ((dictGet? cid (groupTranslations ts)).getD []) =
      (ts.filter fun t => decide (t.chapter_id = cid ∧ t.language = lang)).getLast? := by
  rw [groupTranslations, groupLoop_lookup]
  rcases hlast : (ts.filter fun t => decide (t.chapter_id = cid ∧ t.language = lang)).getLast?
    with _ | e <;> rw [hlast] <;> rfl

/-! ## Nodup keys of the per-chapter groups -/

theorem mem_keys_insert {K V : Type} [DecidableEq K] (k : K) (v : V)
    (d : List (K × V)) (x : K) :
    x ∈ (dictInsert k v d).map Prod.fst ↔ x = k ∨ x ∈ d.map Prod.fst := by
  induction d with
  | nil => simp [dictInsert]
  | cons e rest ih =>
    rcases e with ⟨k', v'⟩
    by_cases h2 : k' = k
    · subst h2
      rw [show dictInsert k' v ((k', v') :: rest) = (k', v) :: rest by
        simp [dictInsert]]
      simp only [List.map_cons, List.mem_cons]
      tauto
    · rw [show dictInsert k v ((k', v') :: rest) = (k', v') :: dictInsert k v rest by
        simp [dictInsert, h2]]
      simp only [List.map_cons, List.mem_cons]
      rw [ih]
      tauto

theorem keys_nodup_insert {K V : Type} [DecidableEq K] (k : K) (v : V)
    (d : List (K × V)) (h : (d.map Prod.fst).Nodup) :
    ((dictInsert k v d).map Prod.fst).Nodup := by
  induction d with
  | nil => simp [dictInsert]
  | cons e rest ih =>
    rcases e with ⟨k', v'⟩
    simp only [List.map_cons, List.nodup_cons] at h
    by_cases h2 : k' = k
    · rw [show dictInsert k v ((k', v') :: rest) = (k, v) :: rest by
        simp [dictInsert, h2]]
      simp only [List.map_cons, List.nodup_cons]
      subst h2
      exact h
    · rw [show dictInsert k v ((k', v') :: rest) = (k', v') :: dictInsert k v rest by
        simp [dictInsert, h2]]
      simp only [List.map_cons, List.nodup_cons]
      refine ⟨?_, ih h.2⟩
      intro hmem
      rcases (mem_keys_insert k v rest k').1 hmem with h3 | h3
      · exact h2 h3
      · exact h.1 h3

theorem groupTranslations_keys_nodup (ts : List TranslationRow) :
    ∀ cid, (((dictGet? cid (groupTranslations ts)).getD []).map Prod.fst).Nodup := by
  rw [groupTranslations]
  have main : ∀ (l : List TranslationRow) (d : List (Int × List (Str × TranslationRow))),
      (∀ cid, (((dictGet? cid d).getD []).map Prod.fst).Nodup) →
      ∀ cid, (((dictGet? cid (l.foldl groupStep d)).getD []).map Prod.fst).Nodup := by
    intro l
    induction l with
    | nil => intro d h; exact h
    | cons t rest ih =>
      intro d h
      rw [List.foldl_cons]
      refine ih (groupStep d t) ?_
      intro cid
      unfold groupStep
      by_cases hcid : t.chapter_id = cid
      · rw [hcid, dictGet?_insert_self]
        exact keys_nodup_insert _ _ _ (h cid)
      · rw [dictGet?_insert_ne hcid]
        exact h cid
  intro cid
  exact main ts [] (fun cid => by simp [dictGet?]) cid

/-- In a dict with distinct keys, filtering the entries with key `k` yields
exactly the entry found by lookup. -/
theorem nodup_filter_getLast {V : Type} (k : Str) (d : List (Str × V))
    (h : (d.map Prod.fst).Nodup) :
    ((d.filter fun e => decide (e.1 = k)).getLast?) =
      (dictGet? k d).map (fun v => (k, v)) := by
  induction d with
  | nil => simp [dictGet?]
  | cons e rest ih =>
    rcases e with ⟨k', v'⟩
    simp only [List.map_cons, List.nodup_cons] at h
    by_cases h2 : k' = k
    · subst h2
      have hfr : rest.filter (fun e => decide (e.1 = k')) = [] := by
        rw [List.filter_eq_nil_iff]
        intro e he
        simp only [decide_eq_true_eq]
        intro heq
        exact h.1 (heq ▸ List.mem_map_of_mem Prod.fst he)
      rw [List.filter_cons, if_pos (by simp), hfr]
      simp [dictGet?]
    · rw [List.filter_cons, if_neg (by simpa using h2)]
      simp only [dictGet?, if_neg h2]
      exact ih h.2

/-! ## The language-code mapping is the identity -/

theorem mapLangKey_id (l : Str) : mapLangKey l = l := by
  unfold mapLangKey
  split
  · rename_i h
    exact h.symm
  · split
    · rename_i h
      exact h.symm
    · split
      · rename_i h
        exact h.symm
      · split
        · rename_i h
          exact h.symm
        · rfl

/-! ## Map-building fold: projections and lookups -/

theorem buildMaps_fold_fst (g : List (Str × TranslationRow)) :
    ∀ acc, (g.foldl buildMapsStep acc).1 =
      g.foldl (fun d e => dictInsert (mapLangKey e.1) (cleanText e.2.title) d) acc.1 := by
  induction g with
  | nil => intro acc; rfl
  | cons e rest ih => intro acc; rw [List.foldl_cons, List.foldl_cons, ih]; rfl

theorem buildMaps_fold_snd (g : List (Str × TranslationRow)) :
    ∀ acc, (g.foldl buildMapsStep acc).2.1 =
      g.foldl (fun d e => dictInsert (mapLangKey e.1) (cleanText e.2.content) d) acc.2.1 := by
  induction g with
  | nil => intro acc; rfl
  | cons e rest ih => intro acc; rw [List.foldl_cons, List.foldl_cons, ih]; rfl

theorem buildMaps_fold_thd (g : List (Str × TranslationRow)) :
    ∀ acc, (g.foldl buildMapsStep acc).2.2 =
      g.foldl (fun d e => dictInsert (mapLangKey e.1)
        (cleanText (if e.2.summary ≠ [] then e.2.summary else e.2.title)) d) acc.2.2 := by
  induction g with
  | nil => intro acc; rfl
  | cons e rest ih => intro acc; rw [List.foldl_cons, List.foldl_cons, ih]; rfl

/-- Lookup in a dict built by repeated insertion: the value comes from the
last inserted entry with the looked-up key, else from the initial dict. -/
theorem dictFold_lookup {β : Type} (K : β → Str) (V : β → Str) (k : Str)
    (g : List β) :
    ∀ d : List (Str × Str),
      dictGet? k (g.foldl (fun d e => dictInsert (K e) (V e) d) d) =
        ((g.filter fun e => decide (K e = k)).getLast?).elim (dictGet? k d)
          (fun e => some (V e)) := by
  induction g with
  | nil => intro d; rfl
  | cons e rest ih =>
    intro d
    rw [List.foldl_cons, ih, List.filter_cons]
    by_cases hK : K e = k
    · rw [if_pos (by simpa using hK)]
      cases hfr : rest.filter fun e => decide (K e = k) with
      | nil =>
        show dictGet? k (dictInsert (K e) (V e) d) = some (V e)
        rw [hK]
        exact dictGet?_insert_self k (V e) d
      | cons x xs =>
        rw [getLast?_cons_cons_eq2]
        cases hlast : (x :: xs).getLast? with
        | none => exact absurd ((getLast?_eq_none_iff _).1 hlast) (by simp)
        | some e2 => rfl
    · rw [if_neg (by simpa using hK)]
      cases hlast : (rest.filter fun e => decide (K e = k)).getLast? with
      | none =>
        show dictGet? k (dictInsert (K e) (V e) d) = dictGet? k d
        exact dictGet?_insert_ne hK (V e) d
      | some e2 => rfl

/-! ## Stable sort lemmas -/

theorem mem_insertByNum {α : Type} (key : α → Int) (x z : α) (l : List α) :
    z ∈ insertByNum key x l ↔ z = x ∨ z ∈ l := by
  induction l with
  | nil => simp [insertByNum]
  | cons y rest ih =>
    unfold insertByNum
    split
    · rw [List.mem_cons, ih, List.mem_cons]
      tauto
    · exact List.mem_cons

theorem sorted_insertByNum {α : Type} (key : α → Int) (x : α) (l : List α)
    (h : List.Pairwise (fun a b => key a ≤ key b) l) :
    List.Pairwise (fun a b => key a ≤ key b) (insertByNum key x l) := by
  induction l with
  | nil => simp [insertByNum]
  | cons y rest ih =>
    rcases List.pairwise_cons.1 h with ⟨hy, hrest⟩
    unfold insertByNum
    split
    · rename_i hlt
      refine List.pairwise_cons.2 ⟨?_, ih hrest⟩
      intro z hz
      rcases (mem_insertByNum key x z rest).1 hz with rfl | hz2
      · omega
      · exact hy z hz2
    · rename_i hge
      refine List.pairwise_cons.2 ⟨?_, h⟩
      intro z hz
      rcases List.mem_cons.1 hz with rfl | hz2
      · omega
      · have := hy z hz2
        omega

theorem sorted_sortByNum {α : Type} (key : α → Int) (l : List α) :
    List.Pairwise (fun a b => key a ≤ key b) (sortByNum key l) := by
  induction l with
  | nil => simp [sortByNum]
  | cons x rest ih =>
    rw [sortByNum, List.foldr_cons]
    exact sorted_insertByNum key x _ ih

theorem filter_insertByNum {α : Type} (key : α → Int) (n : Int) (x : α)
    (l : List α) :
    (insertByNum key x l).filter (fun c => decide (key c = n)) =
      if key x = n then x :: l.filter (fun c => decide (key c = n))
      else l.filter (fun c => decide (key c = n)) := by
  induction l with
  | nil =>
    by_cases hx : key x = n
    · simp [insertByNum, hx]
    · simp [insertByNum, hx]
  | cons y rest ih =>
    unfold insertByNum
    split
    · rename_i hlt
      by_cases hx : key x = n
      · have hy : ¬ key y = n := by omega
        simp [List.filter_cons, ih, hx, hy]
      · by_cases hy : key y = n
        · simp [List.filter_cons, ih, hx, hy]
        · simp [List.filter_cons, ih, hx, hy]
    · by_cases hx : key x = n
      · simp [List.filter_cons, hx]
      · simp [List.filter_cons, hx]

theorem filter_sortByNum {α : Type} (key : α → Int) (n : Int) (l : List α) :
    (sortByNum key l).filter (fun c => decide (key c = n)) =
      l.filter (fun c => decide (key c = n)) := by
  induction l with
  | nil => rfl
  | cons x rest ih =>
    rw [sortByNum, List.foldr_cons, filter_insertByNum, List.filter_cons]
    by_cases hx : key x = n
    · rw [if_pos hx, if_pos (by simpa using hx)]
      rw [show List.foldr (insertByNum key) [] rest = sortByNum key rest from rfl, ih]
    · rw [if_neg hx, if_neg (by simpa using hx)]
      rw [show List.foldr (insertByNum key) [] rest = sortByNum key rest from rfl, ih]

theorem map_insertByNum {α β : Type} (key : α → Int) (key2 : β → Int)
    (f : α → β) (hf : ∀ a, key2 (f a) = key a) (x : α) (l : List α) :
    (insertByNum key x l).map f = insertByNum key2 (f x) (l.map f) := by
  induction l with
  | nil => rfl
  | cons y rest ih =>
    rw [List.map_cons,
      show insertByNum key x (y :: rest) =
        if key y < key x then y :: insertByNum key x rest else x :: y :: rest
        from rfl,
      show insertByNum key2 (f x) (f y :: rest.map f) =
        if key2 (f y) < key2 (f x) then f y :: insertByNum key2 (f x) (rest.map f)
        else f x :: f y :: rest.map f from rfl]
    by_cases h : key y < key x
    · rw [if_pos h, if_pos (by rw [hf, hf]; exact h), List.map_cons, ih]
    · rw [if_neg h, if_neg (by rw [hf, hf]; exact h), List.map_cons, List.map_cons]

theorem map_sortByNum {α β : Type} (key : α → Int) (key2 : β → Int)
    (f : α → β) (hf : ∀ a, key2 (f a) = key a) (l : List α) :
    (sortByNum key l).map f = sortByNum key2 (l.map f) := by
  induction l with
  | nil => rfl
  | cons x rest ih =>
    rw [sortByNum, List.foldr_cons,
      map_insertByNum key key2 f hf,
      show List.foldr (insertByNum key) [] rest = sortByNum key rest from rfl, ih]
    rfl

/-! ## Determinism of assembly up to timestamps -/

theorem viewOf_assembleChapter (g : List (Int × List (Str × TranslationRow)))
    (ch : ChapterRow) (t1 t2 : Int) :
    (assembleChapter t1 g ch).map viewOf = (assembleChapter t2 g ch).map viewOf := by
  unfold assembleChapter
  dsimp only
  split <;> rfl

theorem view_assembledUnsorted (pd : ParsedData) (t1 t2 : Int) :
    (assembledUnsorted pd t1).map viewOf = (assembledUnsorted pd t2).map viewOf := by
  unfold assembledUnsorted
  generalize groupTranslations pd.translations = g
  induction pd.chapters with
  | nil => rfl
  | cons ch rest ih =>
    rw [List.filterMap_cons, List.filterMap_cons]
    have h := viewOf_assembleChapter g ch t1 t2
    cases h1 : assembleChapter t1 g ch <;> cases h2 : assembleChapter t2 g ch <;>
      rw [h1, h2] at h
    · exact ih
    · exact absurd h (by simp)
    · exact absurd h (by simp)
    · rw [List.map_cons, List.map_cons, ih]
      injection h with h3
      rw [h3]

/-! ## Row-level failure semantics -/

/-- A row that raises inside the translations loop contributes a warning
naming its 1-based line number, and parsing continues. -/
theorem warning_of_error_row (lines : List Str) :
    ∀ (n i : Nat) (l : Str) (e : Str),
      lines.get? i = some l → parseTranslationLineE l = .error e →
      (n + i + 1) ∈ (parseTranslationRowsLoop lines n).2 := by
  induction lines with
  | nil =>
    intro n i l e hget _
    simp at hget
  | cons l0 rest ih =>
    intro n i l e hget herr
    cases i with
    | zero =>
      simp only [List.get?_cons_zero, Option.some.injEq] at hget
      subst hget
      simp [parseTranslationRowsLoop, herr]
    | succ j =>
      rw [List.get?_cons_succ] at hget
      have hmem := ih (n + 1) j l e hget herr
      have harith : n + (j + 1) + 1 = n + 1 + j + 1 := by omega
      rw [harith]
      cases hpl : parseTranslationLineE l0 with
      | ok o =>
        cases o with
        | none => simpa [parseTranslationRowsLoop, hpl] using hmem
        | some t => simpa [parseTranslationRowsLoop, hpl] using hmem
      | error e2 =>
        simp only [parseTranslationRowsLoop, hpl]
        exact List.mem_cons.2 (Or.inr hmem)

/-- A chapter row with fewer than 4 tab-separated fields is skipped silently:
the rest of the block parses exactly as if the row were absent. -/
theorem chapterRow_short_skipped (l : Str) (rest : List Str)
    (h : (splitTab l).length < 4) :
    parseChapterRows (l :: rest) = parseChapterRows rest := by
  rw [parseChapterRows]
  split
  · rfl
  · rw [if_neg (by omega)]

/-! ## Key sets and lookups of the three built maps -/

theorem hasKey_buildMaps_fst (g : List (Str × TranslationRow)) (k : Str) :
    hasKey k (buildMaps g).1 =
      ((g.filter fun e => decide (mapLangKey e.1 = k)).getLast?).isSome := by
  rw [hasKey, buildMaps, buildMaps_fold_fst, dictFold_lookup]
  cases (g.filter fun e => decide (mapLangKey e.1 = k)).getLast? <;> rfl

theorem hasKey_buildMaps_snd (g : List (Str × TranslationRow)) (k : Str) :
    hasKey k (buildMaps g).2.1 =
      ((g.filter fun e => decide (mapLangKey e.1 = k)).getLast?).isSome := by
  rw [hasKey, buildMaps, buildMaps_fold_snd, dictFold_lookup]
  cases (g.filter fun e => decide (mapLangKey e.1 = k)).getLast? <;> rfl

theorem hasKey_buildMaps_thd (g : List (Str × TranslationRow)) (k : Str) :
    hasKey k (buildMaps g).2.2 =
      ((g.filter fun e => decide (mapLangKey e.1 = k)).getLast?).isSome := by
  rw [hasKey, buildMaps, buildMaps_fold_thd, dictFold_lookup]
  cases (g.filter fun e => decide (mapLangKey e.1 = k)).getLast? <;> rfl

theorem buildMaps_title_lookup (g : List (Str × TranslationRow)) (lang : Str)
    (t : TranslationRow) (hnd : (g.map Prod.fst).Nodup)
    (hg : dictGet? lang g = some t) :
    dictGet? lang (buildMaps g).1 = some (cleanText t.title) := by
  rw [buildMaps, buildMaps_fold_fst, dictFold_lookup]
  have hfeq : (g.filter fun e => decide (mapLangKey e.1 = lang)) =
      (g.filter fun e => decide (e.1 = lang)) := by
    simp only [mapLangKey_id]
  rw [hfeq, nodup_filter_getLast lang g hnd, hg]
  rfl

theorem buildMaps_summary_lookup (g : List (Str × TranslationRow)) (lang : Str)
    (t : TranslationRow) (hnd : (g.map Prod.fst).Nodup)
    (hg : dictGet? lang g = some t) :
    dictGet? lang (buildMaps g).2.2 =
      some (cleanText (if t.summary ≠ [] then t.summary else t.title)) := by
  rw [buildMaps, buildMaps_fold_thd, dictFold_lookup]
  have hfeq : (g.filter fun e => decide (mapLangKey e.1 = lang)) =
      (g.filter fun e => decide (e.1 = lang)) := by
    simp only [mapLangKey_id]
  rw [hfeq, nodup_filter_getLast lang g hnd, hg]
  rfl

/-- The gate key is present in the built title map iff the input rows contain
a translation for the chapter in a language mapping to that key. -/
theorem hasKey_titles_iff (ts : List TranslationRow) (cid : Int) (k : Str) :
    hasKey k (buildMaps ((dictGet? cid (groupTranslations ts)).getD [])).1 = true ↔
      ∃ t ∈ ts, t.chapter_id = cid ∧ t.language = k := by
  rw [hasKey_buildMaps_fst]
  have hfeq : (((dictGet? cid (groupTranslations ts)).getD []).filter
      fun e => decide (mapLangKey e.1 = k)) =
      (((dictGet? cid (groupTranslations ts)).getD []).filter
      fun e => decide (e.1 = k)) := by
    simp only [mapLangKey_id]
  rw [hfeq]
  constructor
  · intro h
    rcases Option.isSome_iff_exists.1 h with ⟨e, he⟩
    have hmem := mem_of_getLast? he
    rw [List.mem_filter] at hmem
    have hkey : hasKey k ((dictGet? cid (groupTranslations ts)).getD []) = true := by
      rw [hasKey_mem_keys]
      exact ⟨e, hmem.1, by simpa using hmem.2⟩
    rw [hasKey, groupTranslations_lookup] at hkey
    rcases Option.isSome_iff_exists.1 hkey with ⟨t, ht⟩
    have htm := mem_of_getLast? ht
    rw [List.mem_filter] at htm
    exact ⟨t, htm.1, by simpa using htm.2⟩
  · rintro ⟨t, htm, hcid, hlang⟩
    have hkey : (dictGet? k ((dictGet? cid (groupTranslations ts)).getD [])).isSome = true := by
      rw [groupTranslations_lookup]
      rcases hlast : (ts.filter fun t => decide (t.chapter_id = cid ∧ t.language = k)).getLast?
        with _ | e
      · rw [getLast?_eq_none_iff, List.filter_eq_nil_iff] at hlast
        exact absurd (by simpa using And.intro hcid hlang) (hlast t htm)
      · rw [hlast]
        rfl
    rcases Option.isSome_iff_exists.1 hkey with ⟨tr, htr⟩
    have : ((((dictGet? cid (groupTranslations ts)).getD []).filter
        fun e => decide (e.1 = k)).getLast?) = some (k, tr) := by
      rw [nodup_filter_getLast k _ (groupTranslations_keys_nodup ts cid), htr]
      rfl
    rw [this]
    rfl

/-! ## Claim theorems -/

/-- C1: for every chapter, the assembler emits a document iff `"english"` is
a key of the title map built from the chapter's grouped translations —
equivalently, iff some input translation row targets the chapter with
language `"english"`; a chapter without an English translation (e.g. with
only a Hindi one) produces no output record. -/
theorem claim_C1_english_gate (ts : List TranslationRow) (ch : ChapterRow)
    (now : Int) :
    ((assembleChapter now (groupTranslations ts) ch).isSome =
      hasKey (str "english")
        (buildMaps ((dictGet? ch.id (groupTranslations ts)).getD [])).1) ∧
    ((assembleChapter now (groupTranslations ts) ch).isSome = true ↔
      ∃ t ∈ ts, t.chapter_id = ch.id ∧ t.language = str "english") := by
  have h1 : (assembleChapter now (groupTranslations ts) ch).isSome =
      hasKey (str "english")
        (buildMaps ((dictGet? ch.id (groupTranslations ts)).getD [])).1 := by
    unfold assembleChapter
    dsimp only
    split <;> simp_all
  refine ⟨h1, ?_⟩
  rw [h1]
  exact hasKey_titles_iff ts ch.id (str "english")

/-- C2 counterexample: two translation rows share chapter 10 and language
`"english"`; the earlier row's raw summary field is the null sentinel, but
the later row wins the grouping, so the assembled summary entry for
`"english"` is `"Stwo"`, which differs both from the normalized title of the
sentinel row (`"Tone"`) and from the assembled title entry (`"Ttwo"`).  The
claim as stated (quantified over every sentinel-summary row) is therefore
false. -/
theorem claim_C2_counterexample :
    ((splitTab (str "1\t10\tenglish\tTone\tCone\t\\N\t2020")).getD 5 [] =
      nullSentinel) ∧
    ((convert_to_mongodb_format
        ⟨[⟨10, 3, str "d", str "english"⟩],
         (parseTranslationRows
            [str "1\t10\tenglish\tTone\tCone\t\\N\t2020",
             str "2\t10\tenglish\tTtwo\tCtwo\tStwo\t2020"]).1⟩ 0).map
        (fun c : MongoChapter => (dictGet? (str "english") c.summary,
          dictGet? (str "english") c.title)) =
      [(some (str "Stwo"), some (str "Ttwo"))]) ∧
    some (str "Stwo") ≠ some (cleanText (str "Tone")) ∧
    some (str "Stwo") ≠ some (str "Ttwo") :=
  ⟨by decide, by decide, by decide, by decide⟩

/-- C2 (amended): restricted to the surviving row of its `(parentId,
language)` key (the last one in input order): (a) parsing maps an empty or
null-sentinel raw summary field to the row's title; (b) for a surviving row
with `summary = title`, the assembled summary entry for its language equals
the normalized title for that language (which is also the title entry). -/
theorem claim_C2_null_summary_falls_back_to_title :
    (∀ (l : Str) (t : TranslationRow),
      parseTranslationLineE l = .ok (some t) →
      ((splitTab l).getD 5 [] = [] ∨ (splitTab l).getD 5 [] = nullSentinel) →
      t.summary = t.title) ∧
    (∀ (ts : List TranslationRow) (ch : ChapterRow) (now : Int)
        (t : TranslationRow) (mc : MongoChapter),
      (ts.filter fun u => decide (u.chapter_id = ch.id ∧
        u.language = t.language)).getLast? = some t →
      t.summary = t.title →
      assembleChapter now (groupTranslations ts) ch = some mc →
      dictGet? t.language mc.summary = some (cleanText t.title) ∧
        dictGet? t.language mc.title = some (cleanText t.title)) := by
  constructor
  · intro l t hparse h5
    unfold parseTranslationLineE at hparse
    split at hparse
    · exact absurd hparse (by simp)
    · dsimp only at hparse
      split at hparse
      · split at hparse
        · injection hparse with h2
          injection h2 with h3
          rw [← h3]
          show (if (splitTab l).getD 5 [] ≠ [] ∧ (splitTab l).getD 5 [] ≠ nullSentinel
            then (splitTab l).getD 5 [] else (splitTab l).getD 3 []) =
            (splitTab l).getD 3 []
          rcases h5 with h5 | h5 <;> rw [h5] <;> simp
        · exact absurd hparse (by simp)
      · exact absurd hparse (by simp)
  · intro ts ch now t mc hlast hsum hasm
    have hnd := groupTranslations_keys_nodup ts ch.id
    have hg : dictGet? t.language
        ((dictGet? ch.id (groupTranslations ts)).getD []) = some t := by
      rw [groupTranslations_lookup]
      exact hlast
    unfold assembleChapter at hasm
    dsimp only at hasm
    split at hasm
    · injection hasm with h2
      have ht : dictGet? t.language mc.title = some (cleanText t.title) := by
        rw [← h2]
        exact buildMaps_title_lookup _ _ t hnd hg
      have hs : dictGet? t.language mc.summary =
          some (cleanText (if t.summary ≠ [] then t.summary else t.title)) := by
        rw [← h2]
        exact buildMaps_summary_lookup _ _ t hnd hg
      rw [hsum, show (if t.title ≠ [] then t.title else t.title) = t.title by
        split <;> rfl] at hs
      exact ⟨hs, ht⟩
    · exact absurd hasm (by simp)

/-- Witness for C2 (amended) at a one-row input: the parsed sentinel-summary
row has `summary = title`, and the assembled summary entry equals the
normalized title. -/
theorem claim_C2_null_summary_falls_back_to_title_witness :
    ((⟨1, 7, str "english", str "T", str "C", str "T", str "2020",
        str "temple"⟩ : TranslationRow).summary =
      (⟨1, 7, str "english", str "T", str "C", str "T", str "2020",
        str "temple"⟩ : TranslationRow).title) ∧
    (dictGet? (str "english")
        (⟨1, [(str "english", str "T")], [(str "english", str "C")],
          [(str "english", str "T")], 0, 0⟩ : MongoChapter).summary =
      some (cleanText (str "T")) ∧
     dictGet? (str "english")
        (⟨1, [(str "english", str "T")], [(str "english", str "C")],
          [(str "english", str "T")], 0, 0⟩ : MongoChapter).title =
      some (cleanText (str "T"))) := by
  constructor
  · exact claim_C2_null_summary_falls_back_to_title.1
      (str "1\t7\tenglish\tT\tC\t\\N\t2020")
      ⟨1, 7, str "english", str "T", str "C", str "T", str "2020", str "temple"⟩
      (by decide) (Or.inr (by decide))
  · exact claim_C2_null_summary_falls_back_to_title.2
      [⟨1, 7, str "english", str "T", str "C", str "T", str "2020", str "temple"⟩]
      ⟨7, 1, str "d", str "english"⟩ 0
      ⟨1, 7, str "english", str "T", str "C", str "T", str "2020", str "temple"⟩
      ⟨1, [(str "english", str "T")], [(str "english", str "C")],
        [(str "english", str "T")], 0, 0⟩
      (by decide) (by decide) (by decide)

/-- C3: the text normalizer is idempotent — `clean_text(clean_text(x)) =
clean_text(x)` for every input — and null/empty inputs pass through
unchanged. -/
theorem claim_C3_normalize_idempotent :
    (∀ o : Option Str, clean_text (clean_text o) = clean_text o) ∧
      clean_text none = none ∧ clean_text (some []) = some [] := by
  refine ⟨?_, rfl, rfl⟩
  intro o
  cases o with
  | none => rfl
  | some s =>
    show some (cleanText (cleanText s)) = some (cleanText s)
    rw [cleanText_idem]

/-- C4: every maximal run of newline characters in the output of
`clean_text` has length exactly 2: the output never contains 3 or more
consecutive newlines, and never a lone newline (every remaining newline has
exactly one adjacent newline, forming a paragraph break). -/
theorem claim_C4_newline_shape (s : Str) :
    (nlRunLens (cleanText s)).all (fun j => j == 2) = true := by
  rw [List.all_eq_true]
  intro j hj
  simpa using runs_cleanText s j hj

/-- C5 counterexample: a chapter row with four fields but a non-numeric id
makes `int(parts[0])` raise an uncaught `ValueError` that aborts the whole
run — the chapters loop has no `try`/`except` — contradicting the claim
that malformed chapter rows are skipped and that no row-level exception
aborts the run. -/
theorem claim_C5_counterexample :
    parseChapterRows [str "abc\t1\tx\tenglish"] = .error (str "ValueError") := by
  decide

/-- C5 (amended): a translation row that raises (non-numeric id/parentId) is
skipped with a warning naming its 1-based line number and the batch
continues; a chapter row with fewer than 4 fields is skipped, silently; but
a chapter row with at least 4 fields and a non-numeric id or sequence number
aborts the run (see the counterexample). -/
theorem claim_C5_row_error_recovery :
    (∀ (lines : List Str) (i : Nat) (l : Str) (e : Str),
      lines.get? i = some l → parseTranslationLineE l = .error e →
      (i + 1) ∈ (parseTranslationRows lines).2) ∧
    (∀ (l : Str) (rest : List Str), (splitTab l).length < 4 →
      parseChapterRows (l :: rest) = parseChapterRows rest) := by
  constructor
  · intro lines i l e hget herr
    have h := warning_of_error_row lines 0 i l e hget herr
    rw [parseTranslationRows]
    simpa using h
  · exact chapterRow_short_skipped

/-- Witness for C5 (amended): a translation row with a non-numeric id yields
warning line 1; a two-field chapter row is skipped. -/
theorem claim_C5_row_error_recovery_witness :
    (1 ∈ (parseTranslationRows [str "x\t7\ta\tb\tc\td\te"]).2) ∧
    parseChapterRows [str "a\tb"] = parseChapterRows [] := by
  constructor
  · exact claim_C5_row_error_recovery.1 [str "x\t7\ta\tb\tc\td\te"] 0
      (str "x\t7\ta\tb\tc\td\te") (str "ValueError") (by decide) (by decide)
  · exact claim_C5_row_error_recovery.2 (str "a\tb") [] (by decide)

/-- C6: the assembled output is sorted ascending by the chapter number, and
the sort is stable: for every number, the subsequence of output records with
that number equals the corresponding subsequence of the unsorted assembly
(which follows input order). -/
theorem claim_C6_sorted_stable (pd : ParsedData) (now : Int) (n : Int) :
    List.Pairwise (fun a b => a.number ≤ b.number)
      (convert_to_mongodb_format pd now) ∧
    (convert_to_mongodb_format pd now).filter
        (fun c : MongoChapter => decide (c.number = n)) =
      (assembledUnsorted pd now).filter
        (fun c : MongoChapter => decide (c.number = n)) := by
  constructor
  · rw [convert_to_mongodb_format]
    exact sorted_sortByNum (fun c : MongoChapter => c.number) _
  · rw [convert_to_mongodb_format]
    exact filter_sortByNum (fun c : MongoChapter => c.number) n _

/-- C7: translation grouping is last-write-wins: the entry of the grouping
at `(parentId, language)` is exactly the last input row bearing that key
(`none` when no row does). -/
theorem claim_C7_grouping_last_write_wins (ts : List TranslationRow)
    (cid : Int) (lang : Str) :
    dictGet? lang ((dictGet? cid (groupTranslations ts)).getD []) =
      (ts.filter fun t => decide (t.chapter_id = cid ∧ t.language = lang)).getLast? :=
  groupTranslations_lookup ts cid lang

/-- C8: every emitted document has coinciding key sets in its three
multilingual maps: a language present in `title` is also present in
`content` and in `summary`. -/
theorem claim_C8_keyset_invariant (ts : List TranslationRow) (ch : ChapterRow)
    (now : Int) (mc : MongoChapter)
    (h : assembleChapter now (groupTranslations ts) ch = some mc) (k : Str)
    (hk : hasKey k mc.title = true) :
    hasKey k mc.content = true ∧ hasKey k mc.summary = true := by
  unfold assembleChapter at h
  dsimp only at h
  split at h
  · injection h with h2
    have htitle : hasKey k mc.title =
        ((((dictGet? ch.id (groupTranslations ts)).getD []).filter
          fun e => decide (mapLangKey e.1 = k)).getLast?).isSome := by
      rw [← h2]
      exact hasKey_buildMaps_fst _ k
    have hcont : hasKey k mc.content =
        ((((dictGet? ch.id (groupTranslations ts)).getD []).filter
          fun e => decide (mapLangKey e.1 = k)).getLast?).isSome := by
      rw [← h2]
      exact hasKey_buildMaps_snd _ k
    have hsumm : hasKey k mc.summary =
        ((((dictGet? ch.id (groupTranslations ts)).getD []).filter
          fun e => decide (mapLangKey e.1 = k)).getLast?).isSome := by
      rw [← h2]
      exact hasKey_buildMaps_thd _ k
    rw [htitle] at hk
    exact ⟨by rw [hcont]; exact hk, by rw [hsumm]; exact hk⟩
  · exact absurd h (by simp)

/-- Witness for C8 at a one-chapter input with an English translation. -/
theorem claim_C8_keyset_invariant_witness :
    hasKey (str "english")
      (⟨3, [(str "english", str "T")], [(str "english", str "C")],
        [(str "english", str "S")], 0, 0⟩ : MongoChapter).content = true ∧
    hasKey (str "english")
      (⟨3, [(str "english", str "T")], [(str "english", str "C")],
        [(str "english", str "S")], 0, 0⟩ : MongoChapter).summary = true :=
  claim_C8_keyset_invariant
    [⟨1, 10, str "english", str "T", str "C", str "S", str "u", str "temple"⟩]
    ⟨10, 3, str "d", str "english"⟩ 0
    ⟨3, [(str "english", str "T")], [(str "english", str "C")],
      [(str "english", str "S")], 0, 0⟩
    (by decide) (str "english") (by decide)

/-- C9 counterexample: two runs of the conversion on the same parsed input
but at different clock readings produce unequal outputs — the
`created_at`/`updated_at` stamps record the wall clock
(`datetime.utcnow()`), so the output sequences are not literally equal. -/
theorem claim_C9_counterexample :
    convert_to_mongodb_format
        ⟨[⟨7, 1, str "d", str "english"⟩],
         [⟨1, 7, str "english", str "T", str "C", str "S", str "u",
            str "temple"⟩]⟩ 0 ≠
      convert_to_mongodb_format
        ⟨[⟨7, 1, str "d", str "english"⟩],
         [⟨1, 7, str "english", str "T", str "C", str "S", str "u",
            str "temple"⟩]⟩ 1 := by
  decide

/-- C9 (amended): assembly is deterministic up to timestamps: two runs on
the same parsed input agree on the number, title, content and summary of
every output record, in the same order; only the clock-dependent
`created_at`/`updated_at` stamps differ, so a full-batch retry rewrites the
same content. -/
theorem claim_C9_deterministic_content (pd : ParsedData) (t1 t2 : Int) :
    (convert_to_mongodb_format pd t1).map viewOf =
      (convert_to_mongodb_format pd t2).map viewOf := by
  rw [convert_to_mongodb_format, convert_to_mongodb_format,
    map_sortByNum (fun c => c.number) (fun v => v.number) viewOf (fun a => rfl),
    map_sortByNum (fun c => c.number) (fun v => v.number) viewOf (fun a => rfl),
    view_assembledUnsorted pd t1 t2]

/-- C10: the search endpoint rejects every query shorter than 3 characters
with HTTP 400 for every store (the store is never consulted), and for
queries of length at least 3 it returns the case-insensitive substring
matches over title, content and summary in the requested language, sorted
by number and capped at 20. -/
theorem claim_C10_search_gate (store : List MongoChapter) (q lang : Str) :
    (q.length < 3 → search_chapters store q lang =
      .error (400, str "Search query must be at least 3 characters")) ∧
    (3 ≤ q.length → search_chapters store q lang =
      .ok ((sortByNum (fun c => c.number)
        (store.filter (chapterMatches q lang))).take 20)) := by
  constructor
  · intro h
    rw [search_chapters, if_pos h]
  · intro h
    rw [search_chapters, if_neg (by omega)]

/-- Witness for C10: a 2-character query is rejected, a 3-character query
searches. -/
theorem claim_C10_search_gate_witness :
    search_chapters [] (str "ab") (str "english") =
      .error (400, str "Search query must be at least 3 characters") ∧
    search_chapters [] (str "abc") (str "english") =
      .ok ((sortByNum (fun c => c.number)
        (List.filter (chapterMatches (str "abc") (str "english")) [])).take 20) :=
  ⟨(claim_C10_search_gate [] (str "ab") (str "english")).1 (by decide),
   (claim_C10_search_gate [] (str "abc") (str "english")).2 (by decide)⟩

end Satcharitra

